import Mathlib

/-!
Verification of the ecash-402 wallet core (ledger reconstruction, coin
selection, redeem orchestration, multi-mint aggregation) against its
natural-language specification.

The definitions below are a shallow embedding of the Rust source:
- `src/src/nip60.rs` (`Nip60Wallet::fetch_wallet_state`,
  `select_proofs_for_exact_amount`, `split_proofs_for_amounts`,
  `calculate_optimal_denominations`, `redeem`),
- `src/src/multimint.rs` (`MultimintWallet::normalize_to_sats`,
  `get_total_balance`),
- `src/src/crypto.rs` (`calculate_optimal_denominations`).

Machine integers (`u64`) are modelled as `Nat`: every quantity involved is a
sum of token amounts far below 2^64, and the source parses amounts with
`unwrap_or(0)` into non-negative integers. Event ids (hex strings of nostr
`EventId`) and proof signatures (`proof.c` points) are modelled as `Nat`
identifiers; equality is the only operation the source performs on them.
-/

namespace Ecash402

/-- A cashu proof (bearer token). In the source a proof carries
`amount`, `keyset_id`, `secret`, `c` (the unblinded signature point) and an
optional witness. Ledger reconstruction dedups by `format!("{}", proof.c)`
alone, so we keep the fields the core reads: `amount`, `secret`, `c`. -/
structure Proof where
  amount : Nat
  secret : String
  c : Nat
  deriving DecidableEq, Repr

/-- Decrypted content of a kind-7375 TOKEN event (`struct TokenData` in
nip60.rs): the mint url, the announced proofs, and `del`, the ids of prior
token events this event supersedes. -/
structure TokenData where
  mint : String
  proofs : List Proof
  del : List Nat
  deriving DecidableEq, Repr

/-- A fetched nostr event, restricted to the kinds `fetch_wallet_state`
reads. A token event's `content` is `none` when nip44 decryption or JSON
parsing of the content fails (both are skipped non-fatally by the source).
`history` models a kind-7376 spending-history event; reconstruction ignores
it, it exists so `redeem`'s published events can be stated. -/
inductive NostrEvent where
  | token (id : Nat) (createdAt : Nat) (content : Option TokenData)
  | deletion (id : Nat) (refs : List Nat)
  | history (id : Nat) (direction : String) (amount : Nat)
  deriving DecidableEq, Repr

/-- A token event as consumed by the reconstruction pass. -/
structure TokenEvent where
  id : Nat
  createdAt : Nat
  content : Option TokenData
  deriving DecidableEq, Repr

/-- The token events of a fetched event list
(`events.iter().filter(|e| e.kind == kinds::TOKEN)`). -/
def tokenEvents (events : List NostrEvent) : List TokenEvent :=
  events.filterMap fun e =>
    match e with
    | .token i t c => some ⟨i, t, c⟩
    | _ => none

/-- Ids referenced by deletion events: the `deleted_ids` set built by
iterating all fetched events and inserting every `e`-tag of every kind-5
event (only membership in the set is ever consulted). -/
def deletedIds : List NostrEvent → List Nat
  | [] => []
  | .deletion _ refs :: es => refs ++ deletedIds es
  | _ :: es => deletedIds es

/-- Insert into a list already sorted by `createdAt` descending, keeping the
inserted element before elements of equal key (the element being inserted
comes earlier in the original list; Rust's `sort_by_key` is stable). -/
def insertByCreatedDesc (e : TokenEvent) : List TokenEvent → List TokenEvent
  | [] => [e]
  | x :: xs =>
    if e.createdAt < x.createdAt then x :: insertByCreatedDesc e xs
    else e :: x :: xs

/-- Stable sort by `createdAt` descending
(`token_events.sort_by_key(|e| std::cmp::Reverse(e.created_at))`). -/
def sortByCreatedDesc : List TokenEvent → List TokenEvent
  | [] => []
  | x :: xs => insertByCreatedDesc x (sortByCreatedDesc xs)

/-- Accumulator of the reconstruction pass: the growing `invalid_token_ids`
set, the `proof_seen` dedup set (values of `proof.c`), the collected
`all_proofs`, and the `proof_to_event_id` map (association list, `proof.c`
to claiming event id). -/
structure ReconAcc where
  invalid : List Nat
  seen : List Nat
  proofs : List Proof
  proofToEventId : List (Nat × Nat)
  deriving DecidableEq, Repr

/-- The inner proof loop of `fetch_wallet_state`: record each proof whose
identity `proof.c` has not been seen in this pass, and map it to the
claiming event's id. -/
def recordProofs (eventId : Nat) (acc : ReconAcc) (ps : List Proof) : ReconAcc :=
  ps.foldl
    (fun a p =>
      if p.c ∈ a.seen then a
      else
        { a with
          seen := a.seen ++ [p.c]
          proofs := a.proofs ++ [p]
          proofToEventId := a.proofToEventId ++ [(p.c, eventId)] })
    acc

/-- One iteration of the event loop of `fetch_wallet_state`: skip events
already invalid; skip undecryptable events; on success add every id of the
event's `del` list to `invalid`, re-check the event's own membership, and
if still valid record its proofs. -/
def processTokenEvent (acc : ReconAcc) (e : TokenEvent) : ReconAcc :=
  if e.id ∈ acc.invalid then acc
  else
    match e.content with
    | none => acc
    | some td =>
      if e.id ∈ acc.invalid ++ td.del then
        { acc with invalid := acc.invalid ++ td.del }
      else recordProofs e.id { acc with invalid := acc.invalid ++ td.del }
        td.proofs

/-- Derived wallet state (`struct WalletState`): balance, surviving proofs,
and the proof-identity to event-id map. The `mint_keysets` field of the
source is cached mint metadata fetched over HTTP, independent of the event
log, and is not part of the reconstruction result modelled here. -/
structure WalletState where
  balance : Nat
  proofs : List Proof
  proofToEventId : List (Nat × Nat)
  deriving DecidableEq, Repr

/-- The final accumulator of the reconstruction pass over a fetched event
list: newest-first traversal of the token events, starting from the ids
referenced by deletion events. -/
def reconFinal (events : List NostrEvent) : ReconAcc :=
  (sortByCreatedDesc (tokenEvents events)).foldl processTokenEvent
    { invalid := deletedIds events
      seen := []
      proofs := []
      proofToEventId := [] }

/-- `Nip60Wallet::fetch_wallet_state` (nip60.rs lines 572-667), as a
function of the fetched event list: build `deleted_ids`, sort token events
newest first, run the supersession/dedup pass, and sum the recorded proof
amounts into the balance. -/
def fetch_wallet_state (events : List NostrEvent) : WalletState :=
  let final := reconFinal events
  { balance := (final.proofs.map Proof.amount).sum
    proofs := final.proofs
    proofToEventId := final.proofToEventId }

example :
    fetch_wallet_state
      [.token 1 2 (some ⟨"m", [⟨5, "s1", 101⟩, ⟨3, "s2", 102⟩], []⟩),
       .token 2 5 (some ⟨"m", [⟨8, "s3", 103⟩], [1]⟩)] =
      ⟨8, [⟨8, "s3", 103⟩], [(103, 2)]⟩ := by decide

example :
    (fetch_wallet_state
      [.token 1 9 (some ⟨"m", [⟨5, "s1", 101⟩, ⟨3, "s2", 102⟩], []⟩),
       .token 2 5 (some ⟨"m", [⟨8, "s3", 103⟩], [1]⟩)]).balance = 16 := by decide

example :
    fetch_wallet_state
      [.token 1 2 (some ⟨"m", [⟨5, "s1", 101⟩], []⟩),
       .deletion 7 [1]] = ⟨0, [], []⟩ := by decide

/-- Whether an event is a token event with the given id (used to state that
a deleted token event contributes nothing). -/
def isTokenWithId (i : Nat) : NostrEvent → Bool
  | .token j _ _ => j == i
  | _ => false

/-- The proofs a token event announces (empty when undecryptable). -/
def proofsOfEvent (e : TokenEvent) : List Proof :=
  match e.content with
  | some td => td.proofs
  | none => []

/-- The supersession list a token event carries (empty when
undecryptable). -/
def delsOfEvent (e : TokenEvent) : List Nat :=
  match e.content with
  | some td => td.del
  | none => []

/-- All ids named in the `del` lists of a list of token events. -/
def delsOf : List TokenEvent → List Nat
  | [] => []
  | e :: l => delsOfEvent e ++ delsOf l

/-- All proofs announced by a list of token events. -/
def tokenProofsOf : List TokenEvent → List Proof
  | [] => []
  | e :: l => proofsOfEvent e ++ tokenProofsOf l

/-- All proofs announced by any token event of a fetched event list. -/
def allTokenProofs (events : List NostrEvent) : List Proof :=
  tokenProofsOf (tokenEvents events)

/-- The set of dedup identities recorded so far. -/
def seenSet (acc : ReconAcc) : Finset Nat := acc.seen.toFinset

/-- Invariant of the reconstruction pass relative to a universe `U` of
proofs: recorded proofs and seen identities march in lockstep, recorded
identities are distinct, and every recorded proof comes from `U`. -/
structure GoodAcc (U : List Proof) (acc : ReconAcc) : Prop where
  lockstep : acc.proofs.map Proof.c = acc.seen
  nodup : acc.seen.Nodup
  inU : ∀ p ∈ acc.proofs, p ∈ U

/-- Sortedness by `createdAt` descending. -/
def SortedByCreatedDesc (l : List TokenEvent) : Prop :=
  l.Pairwise (fun a b => b.createdAt ≤ a.createdAt)

/-! Coin selection (`select_proofs_for_exact_amount`,
`split_proofs_for_amounts`, nip60.rs lines 1418-1523). All errors in the
source are `Error::custom(message)`; the constructors below stand for the
distinct messages built at the distinct failure sites. -/

/-- Error outcomes of the coin-selection and split paths. Constructors
correspond to the `Error::custom` format strings of the source:
`insufficientBalance` to "Insufficient balance in target mint ...: need _,
have _", `exactCombinationNotFound` to "Could not find an exact combination
of proofs to cover _ sats (_ sats missing)", `insufficientSelected` to
"Could not select sufficient proofs: need _, selected _", and
`amountMismatch` to "Amount mismatch: input=_, send=_, change=_". -/
inductive WalletError where
  | insufficientBalance (needed available : Nat)
  | exactCombinationNotFound (amount missing : Nat)
  | insufficientSelected (needed selected : Nat)
  | amountMismatch (input send change : Nat)
  deriving DecidableEq, Repr

/-- Insert into a list already sorted by `amount` descending, keeping the
inserted element before elements of equal amount (stable, as Rust's
`sort_by(|a, b| b.amount.cmp(&a.amount))`). -/
def insertByAmountDesc (p : Proof) : List Proof → List Proof
  | [] => [p]
  | x :: xs =>
    if p.amount < x.amount then x :: insertByAmountDesc p xs
    else p :: x :: xs

/-- Stable sort of proofs, largest amount first. -/
def sortByAmountDesc : List Proof → List Proof
  | [] => []
  | x :: xs => insertByAmountDesc x (sortByAmountDesc xs)

/-- The greedy accumulation loop of `select_proofs_for_exact_amount`:
walk the sorted proofs; stop once the remainder is zero; skip a proof whose
value is zero or would overshoot the remainder; otherwise take it. Returns
(selected proofs, selected total, unmet remainder). -/
def greedyLoop : List Proof → List Proof → Nat → Nat → (List Proof × Nat × Nat)
  | [], selected, total, remaining => (selected, total, remaining)
  | p :: rest, selected, total, remaining =>
    if remaining = 0 then (selected, total, remaining)
    else if p.amount = 0 ∨ remaining < p.amount then
      greedyLoop rest selected total remaining
    else
      greedyLoop rest (selected ++ [p]) (total + p.amount) (remaining - p.amount)

/-- `Nip60Wallet::split_proofs_for_amounts` (nip60.rs lines 1500-1523).
After checking that the input total matches send + change, the source
computes two denomination plans it never uses and returns the input proofs
unchanged as the send set, with an empty change set — a stub in place of a
denomination-preserving mint swap. -/
def split_proofs_for_amounts (inputProofs : List Proof)
    (sendAmount changeAmount : Nat) :
    Except WalletError (List Proof × List Proof) :=
  let totalInput := (inputProofs.map Proof.amount).sum
  if totalInput ≠ sendAmount + changeAmount then
    .error (.amountMismatch totalInput sendAmount changeAmount)
  else
    .ok (inputProofs, [])

/-- Result of `select_proofs_for_exact_amount`: the proofs for the outgoing
token, all proofs consumed from spent events, and — modelling the
`create_token_event(target_mint, change_proofs, ...)` side effect taken
only when the change set is non-empty — the proofs persisted as a new
change TokenEvent, if any. The source also returns the spent event ids
(the `proof_to_event_id` entries of the selected proofs); no claim touches
them. -/
structure SelectResult where
  sendProofs : List Proof
  consumedProofs : List Proof
  persistedChange : Option (List Proof)
  deriving DecidableEq, Repr

/-- `Nip60Wallet::select_proofs_for_exact_amount` (nip60.rs lines
1418-1498) as a function of the reconstructed proof set: fail with
`insufficientBalance` when the available total is below the request;
otherwise run the descending no-overshoot greedy pass; fail with
`exactCombinationNotFound` when a positive remainder is left; on an exact
hit return the selection; in the change case split and persist the
non-empty change set. -/
def select_proofs_for_exact_amount (availableProofs : List Proof)
    (amount : Nat) : Except WalletError SelectResult :=
  let availableAmount := (availableProofs.map Proof.amount).sum
  if availableAmount < amount then
    .error (.insufficientBalance amount availableAmount)
  else
    let r := greedyLoop (sortByAmountDesc availableProofs) [] 0 amount
    let selectedProofs := r.1
    let selectedTotal := r.2.1
    let remaining := r.2.2
    if remaining ≠ 0 then
      .error (.exactCombinationNotFound amount remaining)
    else if selectedTotal < amount then
      .error (.insufficientSelected amount selectedTotal)
    else if selectedTotal = amount then
      .ok ⟨selectedProofs, selectedProofs, none⟩
    else
      match split_proofs_for_amounts selectedProofs amount
          (selectedTotal - amount) with
      | .error e => .error e
      | .ok (sendProofs, changeProofs) =>
        .ok ⟨sendProofs, availableProofs,
          if changeProofs.isEmpty then none else some changeProofs⟩

example :
    select_proofs_for_exact_amount [⟨2, "a", 1⟩, ⟨2, "b", 2⟩] 3 =
      .error (.exactCombinationNotFound 3 1) := rfl

example :
    select_proofs_for_exact_amount
      [⟨8, "a", 1⟩, ⟨4, "b", 2⟩, ⟨2, "c", 3⟩, ⟨1, "d", 4⟩] 13 =
      .ok ⟨[⟨8, "a", 1⟩, ⟨4, "b", 2⟩, ⟨1, "d", 4⟩],
           [⟨8, "a", 1⟩, ⟨4, "b", 2⟩, ⟨1, "d", 4⟩], none⟩ := rfl

example :
    select_proofs_for_exact_amount [⟨2, "a", 1⟩] 3 =
      .error (.insufficientBalance 3 2) := rfl

/-! Denomination planning (`calculate_optimal_denominations`, crypto.rs
lines 10-27; the method of the same name in nip60.rs lines 1525-1542 has an
identical body). The Rust `HashMap<u64, u32>` is modelled as an association
list; the loop inserts each denomination at most once. -/

/-- The fixed denomination table of the source, largest first. -/
def denomTable : List Nat :=
  [16384, 8192, 4096, 2048, 1024, 512, 256, 128, 64, 32, 16, 8, 4, 2, 1]

/-- The planner loop: for each denomination, when the remainder covers it,
compute `count = remaining / denom` (a `u64`), record the pair
`(denom, count as u32)` — the stored count is truncated to 32 bits,
modelled as `count % 2^32` — and subtract the untruncated `denom * count`
from the remainder. Returns the recorded (denomination, count) pairs and
the final remainder. -/
def denomLoop : List Nat → Nat → (List (Nat × Nat) × Nat)
  | [], remaining => ([], remaining)
  | d :: ds, remaining =>
    if d ≤ remaining then
      let count := remaining / d
      let r := denomLoop ds (remaining - d * count)
      ((d, count % 2 ^ 32) :: r.1, r.2)
    else
      denomLoop ds remaining

/-- `calculate_optimal_denominations`: the multiset of power-of-two
denominations covering `amount`, with each count stored as a `u32`
(truncating) while the remainder bookkeeping uses the full `u64` count. -/
def calculate_optimal_denominations (amount : Nat) : List (Nat × Nat) :=
  (denomLoop denomTable amount).1

example : calculate_optimal_denominations 13 = [(8, 1), (4, 1), (1, 1)] := by
  decide

example :
    calculate_optimal_denominations 40000 =
      [(16384, 2), (4096, 1), (2048, 1), (1024, 1), (64, 1)] := by
  decide

/-! Multi-mint aggregation (`MultimintWallet::normalize_to_sats` and
`get_total_balance`, multimint.rs lines 147-180 and 366-372). -/

/-- `cdk::nuts::CurrencyUnit`, restricted to the variants the source
matches on; every other unit string is carried in `custom`. -/
inductive CurrencyUnit where
  | sat
  | msat
  | usd
  | eur
  | custom (s : String)
  deriving DecidableEq, Repr

/-- `MultimintWallet::normalize_to_sats`: millisats are divided by 1000
(integer division), sats pass through, and the wildcard arm passes every
other unit through unchanged. -/
def normalize_to_sats (amount : Nat) (unit : CurrencyUnit) : Nat :=
  match unit with
  | .msat => amount / 1000
  | .sat => amount
  | _ => amount

/-- One entry of `MultimintWallet::mint_wallets` at aggregation time: the
mint's url, its recorded unit, its active flag, and the balance the mint
wallet reports (`wallet.balance()` parsed with `unwrap_or(0)`). -/
structure MintWalletEntry where
  url : String
  unit : CurrencyUnit
  active : Bool
  balance : Nat
  deriving DecidableEq, Repr

/-- The `total_balance` computed by `MultimintWallet::get_total_balance`:
skip inactive mints, normalize each active mint's balance to sats, and
accumulate. The source iterates a `HashMap`; the sum is order-independent,
so a list fold is a faithful model. The per-mint `balances_by_mint` map the
source also builds carries the raw balances and is not needed here. -/
def get_total_balance (mints : List MintWalletEntry) : Nat :=
  mints.foldl
    (fun acc m =>
      if m.active then acc + normalize_to_sats m.balance m.unit else acc)
    0

example :
    get_total_balance
      [⟨"mintX", .msat, true, 5000⟩, ⟨"mintY", .sat, true, 3⟩] = 8 := by decide

example :
    get_total_balance
      [⟨"mintX", .usd, true, 21⟩, ⟨"mintY", .sat, true, 3⟩] = 24 := by decide

/-! Redeem orchestration (`Nip60Wallet::redeem`, nip60.rs lines 1325-1416).
The network and mint calls the function makes are modelled by a context
carrying each call's outcome; the nostr relay is modelled by the event list
the wallet has published, which `redeem` extends on success. -/

/-- A keyset as reported by the mint (`crates/wallet/src/mint.rs`,
`struct KeysetInfo`): id, unit string, active flag. -/
structure KeysetInfo where
  id : String
  unit : String
  active : Bool
  deriving DecidableEq, Repr

/-- Cached mint metadata (`struct MintInfo` in nip60.rs), reduced to the
field `redeem` reads: the keyset list. -/
structure MintInfo where
  keysets : List KeysetInfo
  deriving DecidableEq, Repr

/-- The keyset-unit strings `redeem` matches on ("sat", "msat", "usd",
"eur"); any other string goes through `CurrencyUnit::from_str`, which
yields the custom variant for unrecognised units (its `unwrap_or(Sat)`
fallback is therefore not taken on any input a mint reports). -/
def unitFromKeysetStr (s : String) : CurrencyUnit :=
  match s with
  | "sat" => .sat
  | "msat" => .msat
  | "usd" => .usd
  | "eur" => .eur
  | other => .custom other

/-- The unit-resolution step of `redeem` (nip60.rs lines 1339-1363): with
mint info available, use the first active keyset's unit; with no active
keyset fall back to the first keyset's unit; with no keysets at all fall
back to Sat; with no mint info use the token's declared unit, defaulting to
Sat. No branch fails. -/
def resolve_mint_unit (mintInfo : Option MintInfo)
    (tokenUnit : Option CurrencyUnit) : CurrencyUnit :=
  match mintInfo with
  | some info =>
    match info.keysets.find? (fun k => k.active) with
    | some activeKeyset => unitFromKeysetStr activeKeyset.unit
    | none =>
      match info.keysets.head? with
      | some firstKeyset => unitFromKeysetStr firstKeyset.unit
      | none => .sat
  | none => tokenUnit.getD .sat

/-- Outcomes of the external calls `redeem` performs, in program order:
parsing the supplied token string and extracting its mint url and declared
unit, looking up cached mint info, creating the temporary cdk wallet,
`temp_wallet.receive` (the swap at the mint which claims the proofs),
`temp_wallet.balance`, and `temp_wallet.send` followed by parsing the
resulting token into proofs. `newTokenEventId`, `newTokenCreatedAt` and
`historyEventId` are the identifiers the relay assigns to the events
published on success; publishing is modelled as succeeding, since the
claims concern failures at or before the mint boundary. -/
structure RedeemContext where
  parsedMintUrl : Option String
  tokenUnit : Option CurrencyUnit
  mintInfo : Option MintInfo
  tempWalletOk : Bool
  receiveResult : Except String Unit
  balanceResult : Except String Nat
  sendResult : Except String (List Proof)
  newTokenEventId : Nat
  newTokenCreatedAt : Nat
  historyEventId : Nat
  deriving Repr

/-- `Nip60Wallet::redeem`: parse the token, reject untrusted mints, resolve
the currency unit, create a temporary wallet, receive (swap) the token at
the mint, read the redeemed balance, move the proofs out of the temporary
wallet, then persist a new TokenEvent with the final proofs and an
incoming spending-history entry. Returns the event list after the call and
the outcome; every failure path leaves the event list untouched, because
the source publishes nothing before the final two steps. -/
def redeem (mints : List String) (ctx : RedeemContext)
    (events : List NostrEvent) :
    List NostrEvent × Except String Nat :=
  match ctx.parsedMintUrl with
  | none => (events, .error "Failed to get mint URL")
  | some mintUrl =>
    if mintUrl ∈ mints then
      let _mintUnit := resolve_mint_unit ctx.mintInfo ctx.tokenUnit
      if ctx.tempWalletOk then
        match ctx.receiveResult with
        | .error e => (events, .error ("Failed to redeem token: " ++ e))
        | .ok _ =>
          match ctx.balanceResult with
          | .error e => (events, .error ("Failed to get balance: " ++ e))
          | .ok redeemedAmount =>
            match ctx.sendResult with
            | .error e =>
              (events, .error ("Failed to send from temp wallet: " ++ e))
            | .ok finalProofs =>
              (events ++
                [.token ctx.newTokenEventId ctx.newTokenCreatedAt
                  (some ⟨mintUrl, finalProofs, []⟩),
                 .history ctx.historyEventId "in" redeemedAmount],
               .ok redeemedAmount)
      else (events, .error "Failed to create temp wallet")
    else (events, .error "Cannot redeem tokens from untrusted mint")

example :
    (redeem ["m1"]
      ⟨some "m2", none, none, true, .ok (), .ok 5, .ok [⟨5, "s", 9⟩], 40, 40, 41⟩
      []).2 = .error "Cannot redeem tokens from untrusted mint" := rfl

example :
    redeem ["m1"]
      ⟨some "m1", none, none, true, .ok (), .ok 5, .ok [⟨5, "s", 9⟩], 40, 7, 41⟩
      [] =
      ([.token 40 7 (some ⟨"m1", [⟨5, "s", 9⟩], []⟩), .history 41 "in" 5],
       .ok 5) := rfl

/-! Denomination-planner lemmas. -/

theorem denomLoop_sum (ds : List Nat) :
    ∀ r : Nat, (∀ d ∈ ds, 0 < d ∧ d ≤ 2 ^ 32) →
      (∀ d, ds.head? = some d → r < d * 2 ^ 32) →
      ((denomLoop ds r).1.map fun dc => dc.1 * dc.2).sum +
        (denomLoop ds r).2 = r := by
  induction ds with
  | nil => intro r _ _; simp [denomLoop]
  | cons d ds ih =>
    intro r hpos hhead
    have hd := hpos d (List.mem_cons_self d ds)
    have hdr : r < d * 2 ^ 32 := hhead d rfl
    have hpos' : ∀ x ∈ ds, 0 < x ∧ x ≤ 2 ^ 32 :=
      fun x hx => hpos x (List.mem_cons_of_mem d hx)
    by_cases h : d ≤ r
    · have hcount : r / d < 2 ^ 32 := by
        rw [Nat.div_lt_iff_lt_mul hd.1]
        calc r < d * 2 ^ 32 := hdr
          _ = 2 ^ 32 * d := Nat.mul_comm _ _
      have hmod : r / d % 2 ^ 32 = r / d := Nat.mod_eq_of_lt hcount
      have hle : d * (r / d) ≤ r := by
        calc d * (r / d) = r / d * d := Nat.mul_comm _ _
          _ ≤ r := Nat.div_mul_le_self r d
      have hrem : r - d * (r / d) < d := by
        have hmodlt : r % d < d := Nat.mod_lt r hd.1
        have hdm := Nat.div_add_mod r d
        omega
      have hnext : ∀ d', ds.head? = some d' →
          r - d * (r / d) < d' * 2 ^ 32 := by
        intro d' hd'
        have hd'mem : d' ∈ ds := by
          cases ds with
          | nil => simp at hd'
          | cons a l =>
            simp at hd'
            exact hd' ▸ List.mem_cons_self a l
        have hd'pos := (hpos' d' hd'mem).1
        have h232 : 2 ^ 32 ≤ d' * 2 ^ 32 :=
          Nat.le_mul_of_pos_left _ hd'pos
        have hd2 : d ≤ 2 ^ 32 := hd.2
        omega
      have hrec := ih (r - d * (r / d)) hpos' hnext
      simp only [denomLoop, if_pos h, List.map_cons, List.sum_cons, hmod]
      omega
    · have hnext : ∀ d', ds.head? = some d' → r < d' * 2 ^ 32 := by
        intro d' hd'
        have hd'mem : d' ∈ ds := by
          cases ds with
          | nil => simp at hd'
          | cons a l =>
            simp at hd'
            exact hd' ▸ List.mem_cons_self a l
        have hd'pos := (hpos' d' hd'mem).1
        have h232 : 2 ^ 32 ≤ d' * 2 ^ 32 :=
          Nat.le_mul_of_pos_left _ hd'pos
        have hrd : r < d := Nat.lt_of_not_le h
        have hd2 : d ≤ 2 ^ 32 := hd.2
        omega
      simp only [denomLoop, if_neg h]
      exact ih r hpos' hnext

theorem denomLoop_rem_of_zero (ds : List Nat) : (denomLoop ds 0).2 = 0 := by
  induction ds with
  | nil => simp [denomLoop]
  | cons d ds ih =>
    by_cases h : d ≤ 0
    · have hd : d = 0 := Nat.le_zero.mp h
      subst hd
      simpa [denomLoop] using ih
    · simpa [denomLoop, h] using ih

theorem denomLoop_rem_eq_zero (ds : List Nat) (r : Nat) (h : 1 ∈ ds) :
    (denomLoop ds r).2 = 0 := by
  induction ds generalizing r with
  | nil => simp at h
  | cons d ds ih =>
    rcases List.mem_cons.mp h with h1 | h1
    · subst h1
      by_cases hr : 1 ≤ r
      · simpa [denomLoop, hr] using denomLoop_rem_of_zero ds
      · have hr0 : r = 0 := by omega
        subst hr0
        simpa [denomLoop] using denomLoop_rem_of_zero ds
    · by_cases hd : d ≤ r
      · simpa [denomLoop, hd] using ih _ h1
      · simpa [denomLoop, hd] using ih r h1

theorem denomLoop_fst_mem (ds : List Nat) (r : Nat) :
    ∀ dc ∈ (denomLoop ds r).1, dc.1 ∈ ds := by
  induction ds generalizing r with
  | nil => simp [denomLoop]
  | cons d ds ih =>
    intro dc hdc
    by_cases h : d ≤ r
    · simp only [denomLoop, if_pos h] at hdc
      rcases List.mem_cons.mp hdc with h1 | h1
      · simp [h1]
      · exact List.mem_cons_of_mem _ (ih _ dc h1)
    · simp only [denomLoop, if_neg h] at hdc
      exact List.mem_cons_of_mem _ (ih _ dc hdc)

/-- C9 counterexample: the planner is not exact for every amount. At
amount 2^46 = 16384 * 2^32 the count for denomination 16384 is 2^32, which
the `count as u32` cast truncates to 0 while the remainder is reduced by
the untruncated 16384 * 2^32; the returned map is the single entry
(16384, 0), whose weighted sum is 0, not 2^46. -/
theorem calculate_optimal_denominations_overflow :
    calculate_optimal_denominations (2 ^ 46) = [(16384, 0)] ∧
    ((calculate_optimal_denominations (2 ^ 46)).map
        fun dc => dc.1 * dc.2).sum ≠ 2 ^ 46 :=
  ⟨rfl, by decide⟩

/-- C9 amended: for every amount below 16384 * 2^32 (= 2^46, the least
input at which a per-denomination count overflows `u32`), the planner
returns (denomination, count) pairs in which every denomination is a power
of two and the weighted sum over all entries equals the input amount
exactly. -/
theorem calculate_optimal_denominations_exact (amount : Nat)
    (hlt : amount < 16384 * 2 ^ 32) :
    (∀ dc ∈ calculate_optimal_denominations amount, ∃ k : Nat, dc.1 = 2 ^ k) ∧
    ((calculate_optimal_denominations amount).map fun dc => dc.1 * dc.2).sum =
      amount := by
  constructor
  · intro dc hdc
    have hmem : dc.1 ∈ denomTable := denomLoop_fst_mem denomTable amount dc hdc
    simp only [denomTable, List.mem_cons, List.not_mem_nil, or_false] at hmem
    rcases hmem with h|h|h|h|h|h|h|h|h|h|h|h|h|h|h
    · exact ⟨14, h.trans (by norm_num)⟩
    · exact ⟨13, h.trans (by norm_num)⟩
    · exact ⟨12, h.trans (by norm_num)⟩
    · exact ⟨11, h.trans (by norm_num)⟩
    · exact ⟨10, h.trans (by norm_num)⟩
    · exact ⟨9, h.trans (by norm_num)⟩
    · exact ⟨8, h.trans (by norm_num)⟩
    · exact ⟨7, h.trans (by norm_num)⟩
    · exact ⟨6, h.trans (by norm_num)⟩
    · exact ⟨5, h.trans (by norm_num)⟩
    · exact ⟨4, h.trans (by norm_num)⟩
    · exact ⟨3, h.trans (by norm_num)⟩
    · exact ⟨2, h.trans (by norm_num)⟩
    · exact ⟨1, h.trans (by norm_num)⟩
    · exact ⟨0, h.trans (by norm_num)⟩
  · have hpos : ∀ d ∈ denomTable, 0 < d ∧ d ≤ 2 ^ 32 := by decide
    have hhead : ∀ d, denomTable.head? = some d → amount < d * 2 ^ 32 := by
      intro d hd
      have h16 : (16384 : Nat) = d := by simpa [denomTable] using hd
      subst h16
      exact hlt
    have h1 := denomLoop_sum denomTable amount hpos hhead
    have h2 := denomLoop_rem_eq_zero denomTable amount (by decide)
    unfold calculate_optimal_denominations
    omega

/-- C9 amended witness: amount 13, well below the u32 overflow bound, plans
to 8 + 4 + 1 with exact weighted sum. -/
theorem calculate_optimal_denominations_exact_witness :
    (13 : Nat) < 16384 * 2 ^ 32 ∧
    ((∀ dc ∈ calculate_optimal_denominations 13, ∃ k : Nat, dc.1 = 2 ^ k) ∧
      ((calculate_optimal_denominations 13).map
          fun dc => dc.1 * dc.2).sum = 13) :=
  ⟨by decide, calculate_optimal_denominations_exact 13 (by decide)⟩

/-- C8: multi-mint aggregation divides millisat balances by 1000 (integer
division), passes sat balances through unchanged, and on mint X holding
5000 msat and mint Y holding 3 sat reports a total balance of 8 sat. -/
theorem get_total_balance_msat_normalization :
    (∀ a : Nat, normalize_to_sats a .msat = a / 1000) ∧
    (∀ a : Nat, normalize_to_sats a .sat = a) ∧
    get_total_balance
      [⟨"mintX", .msat, true, 5000⟩, ⟨"mintY", .sat, true, 3⟩] = 8 :=
  ⟨fun _ => rfl, fun _ => rfl, by decide⟩

/-- C10: a mint whose unit is neither msat nor sat (usd, eur, or any other
unit) has its balance added to the sat-denominated total unchanged, with no
conversion. -/
theorem get_total_balance_other_units_pass_through :
    (∀ a : Nat, normalize_to_sats a .usd = a) ∧
    (∀ a : Nat, normalize_to_sats a .eur = a) ∧
    (∀ (a : Nat) (s : String), normalize_to_sats a (.custom s) = a) ∧
    (∀ (es : List MintWalletEntry) (url : String) (b : Nat),
      get_total_balance (es ++ [⟨url, .usd, true, b⟩]) =
        get_total_balance es + b) := by
  refine ⟨fun _ => rfl, fun _ => rfl, fun _ _ => rfl, fun es url b => ?_⟩
  unfold get_total_balance
  rw [List.foldl_append]
  simp [normalize_to_sats]

/-- C4: whenever the available total covers the requested amount but the
descending no-overshoot greedy pass ends with a positive unmet remainder,
selection fails with the exact-combination-not-found error (and not with
insufficient balance). -/
theorem select_exact_combination_not_found (ps : List Proof) (amount : Nat)
    (h1 : amount ≤ (ps.map Proof.amount).sum)
    (h2 : (greedyLoop (sortByAmountDesc ps) [] 0 amount).2.2 ≠ 0) :
    select_proofs_for_exact_amount ps amount =
      .error (.exactCombinationNotFound amount
        (greedyLoop (sortByAmountDesc ps) [] 0 amount).2.2) := by
  unfold select_proofs_for_exact_amount
  have h3 : ¬ (ps.map Proof.amount).sum < amount := Nat.not_lt.mpr h1
  simp only [if_neg h3, if_pos h2]

/-- C4 witness: over proofs of amounts 2 and 2 with requested amount 3, the
total 4 covers the request, the greedy remainder is 1, and selection fails
with exactCombinationNotFound (not insufficientBalance). -/
theorem select_exact_combination_not_found_witness :
    3 ≤ (([⟨2, "a", 1⟩, ⟨2, "b", 2⟩] : List Proof).map Proof.amount).sum ∧
    (greedyLoop (sortByAmountDesc [⟨2, "a", 1⟩, ⟨2, "b", 2⟩]) [] 0 3).2.2 ≠ 0 ∧
    select_proofs_for_exact_amount [⟨2, "a", 1⟩, ⟨2, "b", 2⟩] 3 =
      .error (.exactCombinationNotFound 3 1) := by
  refine ⟨by decide, by decide, ?_⟩
  exact select_exact_combination_not_found [⟨2, "a", 1⟩, ⟨2, "b", 2⟩] 3
    (by decide) (by decide)

/-- C5 (records the divergence): `split_proofs_for_amounts` is a stub. On
a single proof of amount 4 with send amount 3 and change amount 1 it
returns the input unchanged as the send set — which sums to 4, not 3 — and
an empty change set, so the caller's `create_token_event` for change is
never reached and no change TokenEvent is persisted. -/
theorem split_proofs_for_amounts_stub :
    split_proofs_for_amounts [⟨4, "s", 1⟩] 3 1 = .ok ([⟨4, "s", 1⟩], []) ∧
    (([⟨4, "s", 1⟩] : List Proof).map Proof.amount).sum = 4 :=
  ⟨rfl, rfl⟩

/-- C6: if the mint swap step of redeem (the temporary wallet's receive
call) fails, redeem returns an error, publishes no TokenEvent and no
spending-history event, and the reconstructed wallet state — in particular
the balance — is identical before and after the call. -/
theorem redeem_swap_failure_is_noop (mints : List String)
    (ctx : RedeemContext) (events : List NostrEvent) (e : String)
    (hswap : ctx.receiveResult = .error e) :
    (redeem mints ctx events).1 = events ∧
    (∃ msg, (redeem mints ctx events).2 = .error msg) ∧
    fetch_wallet_state (redeem mints ctx events).1 =
      fetch_wallet_state events := by
  have hkey : (redeem mints ctx events).1 = events ∧
      ∃ msg, (redeem mints ctx events).2 = .error msg := by
    unfold redeem
    cases hp : ctx.parsedMintUrl with
    | none => exact ⟨rfl, _, rfl⟩
    | some mintUrl =>
      by_cases ht : mintUrl ∈ mints
      · by_cases htw : ctx.tempWalletOk
        · simp [ht, htw, hswap]
        · simp [ht, htw]
      · simp [ht]
  exact ⟨hkey.1, hkey.2, by rw [hkey.1]⟩

/-- C6 witness: a concrete failed swap over a one-event log. -/
theorem redeem_swap_failure_is_noop_witness :
    (RedeemContext.mk (some "m1") none none true (.error "token already spent")
        (.ok 5) (.ok [⟨5, "s", 9⟩]) 40 7 41).receiveResult =
      .error "token already spent" ∧
    (redeem ["m1"]
      (RedeemContext.mk (some "m1") none none true (.error "token already spent")
        (.ok 5) (.ok [⟨5, "s", 9⟩]) 40 7 41)
      [.token 1 1 (some ⟨"m1", [⟨2, "x", 3⟩], []⟩)]).1 =
      [.token 1 1 (some ⟨"m1", [⟨2, "x", 3⟩], []⟩)] := by
  refine ⟨rfl, ?_⟩
  exact (redeem_swap_failure_is_noop ["m1"] _ _ "token already spent" rfl).1

/-- C7 counterexample: a trusted mint whose cached info lists a single
inactive keyset (unit "usd"). The claim requires redeem to fail with a
no-active-keyset error; instead the unit resolution falls back to the first
keyset and redeem completes successfully. -/
theorem redeem_no_active_keyset_counterexample :
    (redeem ["m1"]
      ⟨some "m1", none, some ⟨[⟨"kid0", "usd", false⟩]⟩, true, .ok (), .ok 7,
        .ok [⟨7, "s", 9⟩], 50, 6, 51⟩ []).2 = .ok 7 ∧
    (MintInfo.mk [⟨"kid0", "usd", false⟩]).keysets.find? (fun k => k.active) =
      none ∧
    resolve_mint_unit (some ⟨[⟨"kid0", "usd", false⟩]⟩) none = .usd :=
  ⟨rfl, rfl, rfl⟩

/-- C7 amended: redeem never fails for lack of an active keyset. When the
trusted mint's info shows no active keyset, the unit resolution falls back
to the first keyset's unit (Sat when the keyset list is empty) and redeem
proceeds; with the remaining steps succeeding it returns the redeemed
amount. -/
theorem redeem_no_active_keyset_falls_back (mints : List String)
    (ctx : RedeemContext) (events : List NostrEvent) (u : String)
    (info : MintInfo) (amt : Nat) (ps : List Proof)
    (hp : ctx.parsedMintUrl = some u) (ht : u ∈ mints)
    (hinfo : ctx.mintInfo = some info)
    (hna : info.keysets.find? (fun k => k.active) = none)
    (htw : ctx.tempWalletOk = true)
    (hr : ctx.receiveResult = .ok ())
    (hb : ctx.balanceResult = .ok amt)
    (hs : ctx.sendResult = .ok ps) :
    (redeem mints ctx events).2 = .ok amt ∧
    resolve_mint_unit ctx.mintInfo ctx.tokenUnit =
      (match info.keysets.head? with
       | some k => unitFromKeysetStr k.unit
       | none => CurrencyUnit.sat) := by
  constructor
  · unfold redeem
    simp [hp, ht, htw, hr, hb, hs]
  · simp [resolve_mint_unit, hinfo, hna]

/-- C7 amended witness: concrete instance of the fallback. -/
theorem redeem_no_active_keyset_falls_back_witness :
    (redeem ["m1"]
      ⟨some "m1", none, some ⟨[⟨"kid0", "usd", false⟩]⟩, true, .ok (), .ok 7,
        .ok [⟨7, "s", 9⟩], 50, 6, 51⟩ []).2 = .ok 7 ∧
    resolve_mint_unit (some (MintInfo.mk [⟨"kid0", "usd", false⟩])) none =
      (match (MintInfo.mk [⟨"kid0", "usd", false⟩]).keysets.head? with
       | some k => unitFromKeysetStr k.unit
       | none => CurrencyUnit.sat) :=
  redeem_no_active_keyset_falls_back ["m1"] _ [] "m1"
    (MintInfo.mk [⟨"kid0", "usd", false⟩]) 7 [⟨7, "s", 9⟩]
    rfl (by decide) rfl rfl rfl rfl rfl rfl

/-- C1: supersession. For an event set made of TokenEvent A with proofs of
amounts 5 and 3 and TokenEvent B carrying a proof of amount 8 whose del
list names A — B superseding the prior event A, so B is the newer of the
two — reconstruction returns balance 8 and none of A's proofs appear in
the resulting proof list, whichever order the relay delivered the two
events in. -/
theorem fetch_wallet_state_supersession
    (idA idB tA tB cA1 cA2 cB : Nat) (mA mB sA1 sA2 sB : String)
    (es : List NostrEvent)
    (hid : idA ≠ idB) (ht : tA < tB)
    (hes :
      es = [.token idA tA (some ⟨mA, [⟨5, sA1, cA1⟩, ⟨3, sA2, cA2⟩], []⟩),
            .token idB tB (some ⟨mB, [⟨8, sB, cB⟩], [idA]⟩)] ∨
      es = [.token idB tB (some ⟨mB, [⟨8, sB, cB⟩], [idA]⟩),
            .token idA tA (some ⟨mA, [⟨5, sA1, cA1⟩, ⟨3, sA2, cA2⟩], []⟩)]) :
    (fetch_wallet_state es).balance = 8 ∧
    Proof.mk 5 sA1 cA1 ∉ (fetch_wallet_state es).proofs ∧
    Proof.mk 3 sA2 cA2 ∉ (fetch_wallet_state es).proofs := by
  have hne : idB ≠ idA := hid.symm
  have ht' : ¬ tB < tA := by omega
  rcases hes with h | h <;>
    subst h <;>
    simp [fetch_wallet_state, reconFinal, tokenEvents, deletedIds,
      sortByCreatedDesc, insertByCreatedDesc, processTokenEvent, recordProofs,
      ht, ht', hne, Proof.mk.injEq]

/-- C1 witness: concrete ids 1 and 2, times 1 and 2. -/
theorem fetch_wallet_state_supersession_witness :
    (1 : Nat) ≠ 2 ∧ (1 : Nat) < 2 ∧
    (fetch_wallet_state
        [.token 1 1 (some ⟨"mA", [⟨5, "a1", 101⟩, ⟨3, "a2", 102⟩], []⟩),
         .token 2 2 (some ⟨"mB", [⟨8, "b", 103⟩], [1]⟩)]).balance = 8 ∧
    Proof.mk 5 "a1" 101 ∉
      (fetch_wallet_state
        [.token 1 1 (some ⟨"mA", [⟨5, "a1", 101⟩, ⟨3, "a2", 102⟩], []⟩),
         .token 2 2 (some ⟨"mB", [⟨8, "b", 103⟩], [1]⟩)]).proofs ∧
    Proof.mk 3 "a2" 102 ∉
      (fetch_wallet_state
        [.token 1 1 (some ⟨"mA", [⟨5, "a1", 101⟩, ⟨3, "a2", 102⟩], []⟩),
         .token 2 2 (some ⟨"mB", [⟨8, "b", 103⟩], [1]⟩)]).proofs := by
  have h := fetch_wallet_state_supersession 1 2 1 2 101 102 103
    "mA" "mB" "a1" "a2" "b"
    [.token 1 1 (some ⟨"mA", [⟨5, "a1", 101⟩, ⟨3, "a2", 102⟩], []⟩),
     .token 2 2 (some ⟨"mB", [⟨8, "b", 103⟩], [1]⟩)]
    (by decide) (by decide) (Or.inl rfl)
  exact ⟨by decide, by decide, h.1, h.2.1, h.2.2⟩

/-! Reconstruction-pass lemmas: how `recordProofs`, `processTokenEvent`
and their folds treat the invalid set and the seen set. -/

theorem insertByCreatedDesc_nil (e : TokenEvent) :
    insertByCreatedDesc e [] = [e] := rfl

theorem insertByCreatedDesc_cons (e x : TokenEvent) (xs : List TokenEvent) :
    insertByCreatedDesc e (x :: xs) =
      if e.createdAt < x.createdAt then x :: insertByCreatedDesc e xs
      else e :: x :: xs := rfl

theorem sortByCreatedDesc_cons (x : TokenEvent) (xs : List TokenEvent) :
    sortByCreatedDesc (x :: xs) =
      insertByCreatedDesc x (sortByCreatedDesc xs) := rfl

theorem isTokenWithId_token (i j t : Nat) (c : Option TokenData) :
    isTokenWithId i (.token j t c) = (j == i) := rfl

theorem isTokenWithId_deletion (i j : Nat) (refs : List Nat) :
    isTokenWithId i (.deletion j refs) = false := rfl

theorem isTokenWithId_history (i j : Nat) (d : String) (a : Nat) :
    isTokenWithId i (.history j d a) = false := rfl

theorem tokenEvents_cons_token (j t : Nat) (c : Option TokenData)
    (es : List NostrEvent) :
    tokenEvents (.token j t c :: es) = ⟨j, t, c⟩ :: tokenEvents es := rfl

theorem tokenEvents_cons_deletion (j : Nat) (refs : List Nat)
    (es : List NostrEvent) :
    tokenEvents (.deletion j refs :: es) = tokenEvents es := rfl

theorem tokenEvents_cons_history (j : Nat) (d : String) (a : Nat)
    (es : List NostrEvent) :
    tokenEvents (.history j d a :: es) = tokenEvents es := rfl

theorem deletedIds_cons_token (j t : Nat) (c : Option TokenData)
    (es : List NostrEvent) :
    deletedIds (.token j t c :: es) = deletedIds es := rfl

theorem deletedIds_cons_deletion (j : Nat) (refs : List Nat)
    (es : List NostrEvent) :
    deletedIds (.deletion j refs :: es) = refs ++ deletedIds es := rfl

theorem deletedIds_cons_history (j : Nat) (d : String) (a : Nat)
    (es : List NostrEvent) :
    deletedIds (.history j d a :: es) = deletedIds es := rfl

theorem recordProofs_cons (i : Nat) (acc : ReconAcc) (p : Proof)
    (ps : List Proof) :
    recordProofs i acc (p :: ps) =
      recordProofs i
        (if p.c ∈ acc.seen then acc
         else
           { acc with
             seen := acc.seen ++ [p.c]
             proofs := acc.proofs ++ [p]
             proofToEventId := acc.proofToEventId ++ [(p.c, i)] }) ps := rfl

theorem recordProofs_invalid (i : Nat) (ps : List Proof) :
    ∀ acc : ReconAcc, (recordProofs i acc ps).invalid = acc.invalid := by
  induction ps with
  | nil => intro acc; rfl
  | cons p ps ih =>
    intro acc
    rw [recordProofs_cons, ih]
    by_cases h : p.c ∈ acc.seen <;> simp [h]

theorem recordProofs_seenSet (i : Nat) (ps : List Proof) :
    ∀ acc : ReconAcc,
      (recordProofs i acc ps).seen.toFinset =
        acc.seen.toFinset ∪ (ps.map Proof.c).toFinset := by
  induction ps with
  | nil => intro acc; simp [recordProofs]
  | cons p ps ih =>
    intro acc
    rw [recordProofs_cons, ih]
    by_cases h : p.c ∈ acc.seen
    · rw [if_pos h]
      ext x
      simp only [Finset.mem_union, List.mem_toFinset, List.map_cons,
        List.mem_cons]
      constructor
      · rintro (hx | hx)
        · exact Or.inl hx
        · exact Or.inr (Or.inr hx)
      · rintro (hx | hx | hx)
        · exact Or.inl hx
        · exact Or.inl (hx ▸ h)
        · exact Or.inr hx
    · rw [if_neg h]
      ext x
      simp only [Finset.mem_union, List.mem_toFinset, List.mem_append,
        List.mem_singleton, List.map_cons, List.mem_cons]
      tauto

theorem recordProofs_seen_mono (i : Nat) (ps : List Proof) (acc : ReconAcc)
    (x : Nat) (hx : x ∈ acc.seen) : x ∈ (recordProofs i acc ps).seen := by
  have h := recordProofs_seenSet i ps acc
  have : x ∈ (recordProofs i acc ps).seen.toFinset := by
    rw [h]
    exact Finset.mem_union_left _ (List.mem_toFinset.mpr hx)
  exact List.mem_toFinset.mp this

theorem mem_seen_recordProofs (i : Nat) (ps : List Proof) (acc : ReconAcc)
    (p : Proof) (hp : p ∈ ps) : p.c ∈ (recordProofs i acc ps).seen := by
  have h := recordProofs_seenSet i ps acc
  have : p.c ∈ (recordProofs i acc ps).seen.toFinset := by
    rw [h]
    exact Finset.mem_union_right _
      (List.mem_toFinset.mpr (List.mem_map_of_mem Proof.c hp))
  exact List.mem_toFinset.mp this

theorem processTokenEvent_invalid_mono (acc : ReconAcc) (e : TokenEvent)
    (x : Nat) (hx : x ∈ acc.invalid) :
    x ∈ (processTokenEvent acc e).invalid := by
  unfold processTokenEvent
  split
  · exact hx
  · split
    · exact hx
    · split
      · exact List.mem_append_left _ hx
      · rw [recordProofs_invalid]
        exact List.mem_append_left _ hx

theorem foldl_invalid_mono (L : List TokenEvent) :
    ∀ (acc : ReconAcc) (x : Nat), x ∈ acc.invalid →
      x ∈ (L.foldl processTokenEvent acc).invalid := by
  induction L with
  | nil => intro acc x hx; exact hx
  | cons e L ih =>
    intro acc x hx
    rw [List.foldl_cons]
    exact ih _ x (processTokenEvent_invalid_mono acc e x hx)

theorem processTokenEvent_invalid_subset (acc : ReconAcc) (e : TokenEvent)
    (x : Nat) (hx : x ∈ (processTokenEvent acc e).invalid) :
    x ∈ acc.invalid ∨ x ∈ delsOfEvent e := by
  obtain ⟨eid, et, ec⟩ := e
  unfold processTokenEvent at hx
  dsimp only at hx
  split at hx
  · exact Or.inl hx
  · split at hx
    · exact Or.inl hx
    · split at hx
      · rcases List.mem_append.mp hx with h | h
        · exact Or.inl h
        · exact Or.inr (by simpa [delsOfEvent] using h)
      · rw [recordProofs_invalid] at hx
        rcases List.mem_append.mp hx with h | h
        · exact Or.inl h
        · exact Or.inr (by simpa [delsOfEvent] using h)

theorem foldl_invalid_subset (L : List TokenEvent) :
    ∀ (acc : ReconAcc) (x : Nat),
      x ∈ (L.foldl processTokenEvent acc).invalid →
        x ∈ acc.invalid ∨ x ∈ delsOf L := by
  induction L with
  | nil => intro acc x hx; exact Or.inl hx
  | cons e L ih =>
    intro acc x hx
    rw [List.foldl_cons] at hx
    rcases ih _ x hx with h | h
    · rcases processTokenEvent_invalid_subset acc e x h with h' | h'
      · exact Or.inl h'
      · exact Or.inr (by simpa [delsOf] using Or.inl h')
    · exact Or.inr (by simpa [delsOf] using Or.inr h)

theorem foldl_skip_deleted (i : Nat) :
    ∀ (L : List TokenEvent) (acc : ReconAcc), i ∈ acc.invalid →
      L.foldl processTokenEvent acc =
        (L.filter fun e => e.id != i).foldl processTokenEvent acc := by
  intro L
  induction L with
  | nil => intro acc _; rfl
  | cons e L ih =>
    intro acc hi
    by_cases h : e.id = i
    · have hskip : processTokenEvent acc e = acc := by
        unfold processTokenEvent
        rw [if_pos (by rwa [h])]
      have hfil : ((e :: L).filter fun x => x.id != i) =
          L.filter fun x => x.id != i := by
        simp [List.filter_cons, h]
      rw [List.foldl_cons, hskip, hfil, ih acc hi]
    · have hfil : ((e :: L).filter fun x => x.id != i) =
          e :: (L.filter fun x => x.id != i) := by
        simp [List.filter_cons, h]
      rw [List.foldl_cons, hfil, List.foldl_cons]
      exact ih _ (processTokenEvent_invalid_mono acc e i hi)

/-! Stable-sort lemmas. -/

theorem mem_insertByCreatedDesc (e y : TokenEvent) (l : List TokenEvent) :
    y ∈ insertByCreatedDesc e l ↔ y = e ∨ y ∈ l := by
  induction l with
  | nil => simp [insertByCreatedDesc]
  | cons x xs ih =>
    unfold insertByCreatedDesc
    by_cases hc : e.createdAt < x.createdAt
    · rw [if_pos hc]
      simp only [List.mem_cons, ih]
      tauto
    · rw [if_neg hc]
      simp only [List.mem_cons]

theorem sorted_insertByCreatedDesc (e : TokenEvent) (l : List TokenEvent)
    (h : SortedByCreatedDesc l) :
    SortedByCreatedDesc (insertByCreatedDesc e l) := by
  induction l with
  | nil => simp [insertByCreatedDesc, SortedByCreatedDesc]
  | cons x xs ih =>
    obtain ⟨hx, hxs⟩ := List.pairwise_cons.mp h
    unfold insertByCreatedDesc
    by_cases hc : e.createdAt < x.createdAt
    · rw [if_pos hc]
      refine List.pairwise_cons.mpr ⟨?_, ih hxs⟩
      intro y hy
      rcases (mem_insertByCreatedDesc e y xs).mp hy with rfl | hy'
      · exact Nat.le_of_lt hc
      · exact hx y hy'
    · rw [if_neg hc]
      refine List.pairwise_cons.mpr ⟨?_, h⟩
      intro y hy
      rcases List.mem_cons.mp hy with rfl | hy'
      · exact Nat.not_lt.mp hc
      · have h1 := hx y hy'
        have h2 := Nat.not_lt.mp hc
        omega

theorem insertByCreatedDesc_perm (e : TokenEvent) (l : List TokenEvent) :
    (insertByCreatedDesc e l).Perm (e :: l) := by
  induction l with
  | nil => exact List.Perm.refl _
  | cons x xs ih =>
    unfold insertByCreatedDesc
    by_cases hc : e.createdAt < x.createdAt
    · rw [if_pos hc]
      exact (ih.cons x).trans (List.Perm.swap e x xs)
    · rw [if_neg hc]

theorem sortByCreatedDesc_perm (l : List TokenEvent) :
    (sortByCreatedDesc l).Perm l := by
  induction l with
  | nil => exact List.Perm.refl _
  | cons x xs ih =>
    exact (insertByCreatedDesc_perm x (sortByCreatedDesc xs)).trans (ih.cons x)

theorem sorted_sortByCreatedDesc (l : List TokenEvent) :
    SortedByCreatedDesc (sortByCreatedDesc l) := by
  induction l with
  | nil => simp [sortByCreatedDesc, SortedByCreatedDesc]
  | cons x xs ih => exact sorted_insertByCreatedDesc x _ ih

theorem insertByCreatedDesc_eq_cons (e : TokenEvent) (l : List TokenEvent)
    (h : ∀ y ∈ l, y.createdAt ≤ e.createdAt) :
    insertByCreatedDesc e l = e :: l := by
  cases l with
  | nil => rfl
  | cons x xs =>
    unfold insertByCreatedDesc
    rw [if_neg (Nat.not_lt.mpr (h x (List.mem_cons_self x xs)))]

theorem filter_insertByCreatedDesc (p : TokenEvent → Bool) (e : TokenEvent) :
    ∀ l : List TokenEvent, SortedByCreatedDesc l →
      (insertByCreatedDesc e l).filter p =
        if p e then insertByCreatedDesc e (l.filter p) else l.filter p := by
  intro l
  induction l with
  | nil =>
    intro _
    cases hp : p e <;> simp [insertByCreatedDesc_nil, List.filter, hp]
  | cons x xs ih =>
    intro hs
    obtain ⟨hx, hxs⟩ := List.pairwise_cons.mp hs
    rw [insertByCreatedDesc_cons]
    by_cases hc : e.createdAt < x.createdAt
    · rw [if_pos hc, List.filter_cons, ih hxs, List.filter_cons]
      cases hp : p x <;> cases hpe : p e <;>
        simp [insertByCreatedDesc_cons, hc]
    · rw [if_neg hc]
      have hall : ∀ y ∈ List.filter p (x :: xs),
          y.createdAt ≤ e.createdAt := by
        intro y hy
        have hy' : y ∈ x :: xs := List.mem_of_mem_filter hy
        rcases List.mem_cons.mp hy' with rfl | hmem
        · exact Nat.not_lt.mp hc
        · have h1 := hx y hmem
          have h2 := Nat.not_lt.mp hc
          omega
      rw [insertByCreatedDesc_eq_cons e _ hall, List.filter_cons]

theorem filter_sortByCreatedDesc (p : TokenEvent → Bool)
    (l : List TokenEvent) :
    (sortByCreatedDesc l).filter p = sortByCreatedDesc (l.filter p) := by
  induction l with
  | nil => rfl
  | cons x xs ih =>
    show (insertByCreatedDesc x (sortByCreatedDesc xs)).filter p = _
    rw [filter_insertByCreatedDesc p x _ (sorted_sortByCreatedDesc xs), ih,
      List.filter_cons]
    cases hp : p x
    · simp
    · simp [sortByCreatedDesc]

/-! Filtering a deleted token event out of the fetched list. -/

theorem deletedIds_filter_token (i : Nat) (events : List NostrEvent) :
    deletedIds (events.filter fun e => !(isTokenWithId i e)) =
      deletedIds events := by
  induction events with
  | nil => rfl
  | cons e es ih =>
    cases e with
    | token j t c =>
      by_cases h : j = i <;>
        simp [List.filter_cons, isTokenWithId_token, h, deletedIds_cons_token,
          ih]
    | deletion j refs =>
      simp [List.filter_cons, isTokenWithId_deletion, deletedIds_cons_deletion,
        ih]
    | history j d a =>
      simp [List.filter_cons, isTokenWithId_history, deletedIds_cons_history,
        ih]

theorem tokenEvents_filter_token (i : Nat) (events : List NostrEvent) :
    tokenEvents (events.filter fun e => !(isTokenWithId i e)) =
      (tokenEvents events).filter fun te => te.id != i := by
  induction events with
  | nil => rfl
  | cons e es ih =>
    cases e with
    | token j t c =>
      by_cases h : j = i <;>
        simp [List.filter_cons, isTokenWithId_token, h, tokenEvents_cons_token,
          ih]
    | deletion j refs =>
      simp [List.filter_cons, isTokenWithId_deletion,
        tokenEvents_cons_deletion, ih]
    | history j d a =>
      simp [List.filter_cons, isTokenWithId_history, tokenEvents_cons_history,
        ih]

/-- C2: a token event whose id is referenced by a deletion event
contributes nothing to reconstruction — the reconstructed state over the
full event list equals the state over the list with every token event of
that id removed — for every event list, hence regardless of the
`created_at` ordering of the deletion event relative to the token event. -/
theorem fetch_wallet_state_deleted_contributes_nothing
    (events : List NostrEvent) (i : Nat) (hdel : i ∈ deletedIds events) :
    fetch_wallet_state events =
      fetch_wallet_state (events.filter fun e => !(isTokenWithId i e)) := by
  unfold fetch_wallet_state reconFinal
  rw [deletedIds_filter_token, tokenEvents_filter_token,
    ← filter_sortByCreatedDesc,
    ← foldl_skip_deleted i (sortByCreatedDesc (tokenEvents events)) _ hdel]

/-- C2 witness: a token event of id 1 with a proof of amount 5, deleted by
a deletion event that is older in `created_at` than the token event. -/
theorem fetch_wallet_state_deleted_witness :
    1 ∈ deletedIds
      [.token 1 5 (some ⟨"m", [⟨5, "x", 7⟩], []⟩), .deletion 9 [1]] ∧
    fetch_wallet_state
      [.token 1 5 (some ⟨"m", [⟨5, "x", 7⟩], []⟩), .deletion 9 [1]] =
      fetch_wallet_state
        (([.token 1 5 (some ⟨"m", [⟨5, "x", 7⟩], []⟩),
           .deletion 9 [1]] : List NostrEvent).filter
          fun e => !(isTokenWithId 1 e)) :=
  ⟨by decide,
   fetch_wallet_state_deleted_contributes_nothing _ 1 (by decide)⟩

/-! Branch-equation lemmas for `processTokenEvent`. -/

theorem processTokenEvent_skip (acc : ReconAcc) (e : TokenEvent)
    (h : e.id ∈ acc.invalid) : processTokenEvent acc e = acc := by
  unfold processTokenEvent
  rw [if_pos h]

theorem processTokenEvent_undecryptable (acc : ReconAcc) (e : TokenEvent)
    (h : e.id ∉ acc.invalid) (hc : e.content = none) :
    processTokenEvent acc e = acc := by
  unfold processTokenEvent
  rw [if_neg h, hc]

theorem processTokenEvent_eq_of (acc : ReconAcc) (e : TokenEvent)
    (td : TokenData) (h : e.id ∉ acc.invalid) (hc : e.content = some td) :
    processTokenEvent acc e =
      if e.id ∈ acc.invalid ++ td.del then
        { acc with invalid := acc.invalid ++ td.del }
      else recordProofs e.id { acc with invalid := acc.invalid ++ td.del }
        td.proofs := by
  unfold processTokenEvent
  rw [if_neg h, hc]

/-! Seen-set monotonicity and the invariant `GoodAcc`. -/

theorem processTokenEvent_seen_mono (acc : ReconAcc) (e : TokenEvent)
    (x : Nat) (hx : x ∈ acc.seen) : x ∈ (processTokenEvent acc e).seen := by
  unfold processTokenEvent
  split
  · exact hx
  · split
    · exact hx
    · split
      · exact hx
      · exact recordProofs_seen_mono _ _ _ x hx

theorem foldl_seen_mono (L : List TokenEvent) :
    ∀ (acc : ReconAcc) (x : Nat), x ∈ acc.seen →
      x ∈ (L.foldl processTokenEvent acc).seen := by
  induction L with
  | nil => intro acc x hx; exact hx
  | cons e L ih =>
    intro acc x hx
    rw [List.foldl_cons]
    exact ih _ x (processTokenEvent_seen_mono acc e x hx)

theorem recordProofs_good (i : Nat) (U : List Proof) :
    ∀ (ps : List Proof) (acc : ReconAcc), (∀ p ∈ ps, p ∈ U) → GoodAcc U acc →
      GoodAcc U (recordProofs i acc ps) := by
  intro ps
  induction ps with
  | nil => intro acc _ h; exact h
  | cons p ps ih =>
    intro acc hps h
    rw [recordProofs_cons]
    by_cases hc : p.c ∈ acc.seen
    · rw [if_pos hc]
      exact ih acc (fun q hq => hps q (List.mem_cons_of_mem p hq)) h
    · rw [if_neg hc]
      refine ih _ (fun q hq => hps q (List.mem_cons_of_mem p hq)) ?_
      refine ⟨?_, ?_, ?_⟩
      · dsimp only
        rw [List.map_append, h.lockstep, List.map_singleton]
      · dsimp only
        rw [List.nodup_append]
        refine ⟨h.nodup, List.nodup_singleton _, ?_⟩
        intro x hx hx2
        rw [List.mem_singleton] at hx2
        exact hc (hx2 ▸ hx)
      · dsimp only
        intro q hq
        rcases List.mem_append.mp hq with h1 | h1
        · exact h.inU q h1
        · rw [List.mem_singleton] at h1
          exact h1 ▸ hps p (List.mem_cons_self p ps)

theorem processTokenEvent_good (U : List Proof) (acc : ReconAcc)
    (e : TokenEvent) (hU : ∀ p ∈ proofsOfEvent e, p ∈ U)
    (h : GoodAcc U acc) : GoodAcc U (processTokenEvent acc e) := by
  by_cases h1 : e.id ∈ acc.invalid
  · rw [processTokenEvent_skip acc e h1]
    exact h
  · cases hc : e.content with
    | none =>
      rw [processTokenEvent_undecryptable acc e h1 hc]
      exact h
    | some td =>
      rw [processTokenEvent_eq_of acc e td h1 hc]
      by_cases h2 : e.id ∈ acc.invalid ++ td.del
      · rw [if_pos h2]
        exact ⟨h.lockstep, h.nodup, h.inU⟩
      · rw [if_neg h2]
        refine recordProofs_good e.id U td.proofs _ ?_
          ⟨h.lockstep, h.nodup, h.inU⟩
        intro p hp
        exact hU p (by simpa [proofsOfEvent, hc] using hp)

theorem foldl_good (U : List Proof) (L : List TokenEvent) :
    ∀ acc : ReconAcc, (∀ e ∈ L, ∀ p ∈ proofsOfEvent e, p ∈ U) →
      GoodAcc U acc → GoodAcc U (L.foldl processTokenEvent acc) := by
  induction L with
  | nil => intro acc _ h; exact h
  | cons e L ih =>
    intro acc hU h
    rw [List.foldl_cons]
    refine ih _ (fun x hx => hU x (List.mem_cons_of_mem e hx)) ?_
    exact processTokenEvent_good U acc e (hU e (List.mem_cons_self e L)) h

/-! Two-run simulation: starting two passes from accumulators with the same
invalid set whose seen sets differ by a fixed set `S`, the passes keep the
same invalid sets and their seen sets keep differing by exactly `S`. -/

theorem processTokenEvent_sim (e : TokenEvent) (S : Finset Nat)
    (a a' : ReconAcc) (hinv : a'.invalid = a.invalid)
    (hseen : a'.seen.toFinset = a.seen.toFinset ∪ S) :
    (processTokenEvent a' e).invalid = (processTokenEvent a e).invalid ∧
    (processTokenEvent a' e).seen.toFinset =
      (processTokenEvent a e).seen.toFinset ∪ S := by
  by_cases h1 : e.id ∈ a.invalid
  · rw [processTokenEvent_skip a e h1,
      processTokenEvent_skip a' e (by rwa [hinv])]
    exact ⟨hinv, hseen⟩
  · have h1' : e.id ∉ a'.invalid := by rwa [hinv]
    cases hc : e.content with
    | none =>
      rw [processTokenEvent_undecryptable a e h1 hc,
        processTokenEvent_undecryptable a' e h1' hc]
      exact ⟨hinv, hseen⟩
    | some td =>
      rw [processTokenEvent_eq_of a e td h1 hc,
        processTokenEvent_eq_of a' e td h1' hc, hinv]
      by_cases h2 : e.id ∈ a.invalid ++ td.del
      · rw [if_pos h2, if_pos h2]
        exact ⟨rfl, hseen⟩
      · rw [if_neg h2, if_neg h2]
        constructor
        · rw [recordProofs_invalid, recordProofs_invalid]
        · rw [recordProofs_seenSet, recordProofs_seenSet]
          dsimp only
          rw [hseen, Finset.union_right_comm]

theorem foldl_sim (L : List TokenEvent) (S : Finset Nat) :
    ∀ a a' : ReconAcc, a'.invalid = a.invalid →
      a'.seen.toFinset = a.seen.toFinset ∪ S →
      (L.foldl processTokenEvent a').invalid =
        (L.foldl processTokenEvent a).invalid ∧
      (L.foldl processTokenEvent a').seen.toFinset =
        (L.foldl processTokenEvent a).seen.toFinset ∪ S := by
  induction L with
  | nil => intro a a' h1 h2; exact ⟨h1, h2⟩
  | cons e L ih =>
    intro a a' h1 h2
    rw [List.foldl_cons, List.foldl_cons]
    obtain ⟨h1', h2'⟩ := processTokenEvent_sim e S a a' h1 h2
    exact ih _ _ h1' h2'

/-- A surviving token event's proofs are all recorded: if a decryptable
event of the pass is not in the final invalid set, every one of its proof
identities is in the final seen set. -/
theorem mem_seen_of_surviving (L : List TokenEvent) :
    ∀ (acc : ReconAcc) (e : TokenEvent) (td : TokenData), e ∈ L →
      e.content = some td →
      e.id ∉ (L.foldl processTokenEvent acc).invalid →
      ∀ p ∈ td.proofs, p.c ∈ (L.foldl processTokenEvent acc).seen := by
  induction L with
  | nil =>
    intro acc e td h
    exact absurd h (List.not_mem_nil e)
  | cons x L ih =>
    intro acc e td hmem hcont hninv p hp
    rw [List.foldl_cons] at hninv ⊢
    rcases List.mem_cons.mp hmem with rfl | hmem'
    · have h1 : e.id ∉ acc.invalid := by
        intro h
        exact hninv (foldl_invalid_mono L _ e.id
          (processTokenEvent_invalid_mono acc e e.id h))
      rw [processTokenEvent_eq_of acc e td h1 hcont] at hninv ⊢
      by_cases h2 : e.id ∈ acc.invalid ++ td.del
      · exfalso
        rw [if_pos h2] at hninv
        exact hninv (foldl_invalid_mono L _ e.id h2)
      · rw [if_neg h2]
        exact foldl_seen_mono L _ p.c (mem_seen_recordProofs _ _ _ p hp)
    · exact ih (processTokenEvent acc x) e td hmem' hcont hninv p hp

/-! The balance is determined by the seen set (given well-formed proofs). -/

theorem sum_map_eq_toFinset_sum (l : List Proof) (hl : l.Nodup) :
    (l.map Proof.amount).sum = l.toFinset.sum Proof.amount := by
  induction l with
  | nil => simp
  | cons x l ih =>
    have hx : x ∉ l := (List.nodup_cons.mp hl).1
    have hl' : l.Nodup := (List.nodup_cons.mp hl).2
    rw [List.map_cons, List.sum_cons, ih hl', List.toFinset_cons,
      Finset.sum_insert (by simpa using hx)]

theorem mem_proofs_of_seen (U : List Proof)
    (hwf : ∀ p ∈ U, ∀ q ∈ U, p.c = q.c → p = q)
    (a b : ReconAcc) (ha : GoodAcc U a) (hb : GoodAcc U b)
    (hs : ∀ x ∈ a.seen, x ∈ b.seen) :
    ∀ p ∈ a.proofs, p ∈ b.proofs := by
  intro p hp
  have hc : p.c ∈ a.seen := by
    rw [← ha.lockstep]
    exact List.mem_map_of_mem Proof.c hp
  have hc' : p.c ∈ List.map Proof.c b.proofs := by
    rw [hb.lockstep]
    exact hs _ hc
  obtain ⟨q, hq, hqc⟩ := List.mem_map.mp hc'
  have hqp : q = p := hwf q (hb.inU q hq) p (ha.inU p hp) hqc
  exact hqp ▸ hq

theorem balance_eq_of_seenSet_eq (U : List Proof)
    (hwf : ∀ p ∈ U, ∀ q ∈ U, p.c = q.c → p = q)
    (a b : ReconAcc) (ha : GoodAcc U a) (hb : GoodAcc U b)
    (hseen : a.seen.toFinset = b.seen.toFinset) :
    (a.proofs.map Proof.amount).sum = (b.proofs.map Proof.amount).sum := by
  have hna : a.proofs.Nodup :=
    List.Nodup.of_map Proof.c (by rw [ha.lockstep]; exact ha.nodup)
  have hnb : b.proofs.Nodup :=
    List.Nodup.of_map Proof.c (by rw [hb.lockstep]; exact hb.nodup)
  have hsab : ∀ x ∈ a.seen, x ∈ b.seen := by
    intro x hx
    exact List.mem_toFinset.mp (hseen ▸ List.mem_toFinset.mpr hx)
  have hsba : ∀ x ∈ b.seen, x ∈ a.seen := by
    intro x hx
    exact List.mem_toFinset.mp (hseen ▸ List.mem_toFinset.mpr hx)
  have hab := mem_proofs_of_seen U hwf a b ha hb hsab
  have hba := mem_proofs_of_seen U hwf b a hb ha hsba
  have hfin : a.proofs.toFinset = b.proofs.toFinset := by
    ext p
    simp only [List.mem_toFinset]
    exact ⟨fun h => hab p h, fun h => hba p h⟩
  rw [sum_map_eq_toFinset_sum _ hna, sum_map_eq_toFinset_sum _ hnb, hfin]

/-! List bookkeeping for appending a duplicate event. -/

theorem tokenEvents_append (l₁ l₂ : List NostrEvent) :
    tokenEvents (l₁ ++ l₂) = tokenEvents l₁ ++ tokenEvents l₂ := by
  simp [tokenEvents, List.filterMap_append]

theorem deletedIds_append (l₁ l₂ : List NostrEvent) :
    deletedIds (l₁ ++ l₂) = deletedIds l₁ ++ deletedIds l₂ := by
  induction l₁ with
  | nil => rfl
  | cons e es ih =>
    cases e with
    | token j t c => simpa [deletedIds_cons_token] using ih
    | deletion j refs => simp [deletedIds_cons_deletion, ih]
    | history j d a => simpa [deletedIds_cons_history] using ih

theorem mem_delsOf (L : List TokenEvent) (x : Nat) :
    x ∈ delsOf L ↔ ∃ e ∈ L, x ∈ delsOfEvent e := by
  induction L with
  | nil => simp [delsOf]
  | cons e L ih => simp [delsOf, ih]

theorem mem_tokenProofsOf (L : List TokenEvent) (p : Proof) :
    p ∈ tokenProofsOf L ↔ ∃ e ∈ L, p ∈ proofsOfEvent e := by
  induction L with
  | nil => simp [tokenProofsOf]
  | cons e L ih => simp [tokenProofsOf, ih]

theorem mem_tokenEvents_of_mem (events : List NostrEvent) (j t : Nat)
    (c : Option TokenData) (h : NostrEvent.token j t c ∈ events) :
    (⟨j, t, c⟩ : TokenEvent) ∈ tokenEvents events :=
  List.mem_filterMap.mpr ⟨NostrEvent.token j t c, h, rfl⟩

/-- C3: dedup idempotence under proof duplication. Appending to the
fetched event list a second token event — fresh id, any `created_at`,
empty del list — that re-announces exactly the proofs of an existing
surviving token event leaves the reconstructed balance unchanged.
Well-formedness assumptions: a proof's dedup identity `c` (the mint's
signature over the secret) determines the proof among all announced
proofs, and the duplicate's id is genuinely fresh: no token event carries
it, no deletion event references it, and no del list names it. -/
theorem fetch_wallet_state_duplicate_idempotent
    (events : List NostrEvent) (oid ot did dt : Nat) (td : TokenData)
    (dmint : String)
    (horig : NostrEvent.token oid ot (some td) ∈ events)
    (hwf : ∀ p ∈ allTokenProofs events, ∀ q ∈ allTokenProofs events,
      p.c = q.c → p = q)
    (hfreshTok : ∀ te ∈ tokenEvents events, te.id ≠ did)
    (hfreshDeleted : did ∉ deletedIds events)
    (hfreshDels : did ∉ delsOf (tokenEvents events))
    (hsurv : oid ∉ (reconFinal events).invalid) :
    (fetch_wallet_state
        (events ++ [.token did dt (some ⟨dmint, td.proofs, []⟩)])).balance =
      (fetch_wallet_state events).balance := by
  have hTE2 :
      tokenEvents (events ++ [.token did dt (some ⟨dmint, td.proofs, []⟩)]) =
        tokenEvents events ++ [⟨did, dt, some ⟨dmint, td.proofs, []⟩⟩] := by
    rw [tokenEvents_append]
    rfl
  have hDel2 :
      deletedIds (events ++ [.token did dt (some ⟨dmint, td.proofs, []⟩)]) =
        deletedIds events := by
    rw [deletedIds_append, deletedIds_cons_token]
    simp [deletedIds]
  have hdupT : (⟨did, dt, some ⟨dmint, td.proofs, []⟩⟩ : TokenEvent) ∉
      tokenEvents events :=
    fun h => hfreshTok _ h rfl
  have hmem2 : (⟨did, dt, some ⟨dmint, td.proofs, []⟩⟩ : TokenEvent) ∈
      sortByCreatedDesc
        (tokenEvents events ++ [⟨did, dt, some ⟨dmint, td.proofs, []⟩⟩]) :=
    ((sortByCreatedDesc_perm _).mem_iff).mpr
      (List.mem_append_right _ (List.mem_singleton.mpr rfl))
  obtain ⟨L₁, L₂, hsplit⟩ := List.append_of_mem hmem2
  have hcount : List.count (⟨did, dt, some ⟨dmint, td.proofs, []⟩⟩ :
      TokenEvent)
      (sortByCreatedDesc
        (tokenEvents events ++ [⟨did, dt, some ⟨dmint, td.proofs, []⟩⟩])) =
      1 := by
    rw [(sortByCreatedDesc_perm _).count_eq, List.count_append,
      List.count_eq_zero.mpr hdupT]
    simp
  rw [hsplit, List.count_append, List.count_cons_self] at hcount
  have hnotL1 : (⟨did, dt, some ⟨dmint, td.proofs, []⟩⟩ : TokenEvent) ∉ L₁ :=
    List.count_eq_zero.mp (by omega)
  have hnotL2 : (⟨did, dt, some ⟨dmint, td.proofs, []⟩⟩ : TokenEvent) ∉ L₂ :=
    List.count_eq_zero.mp (by omega)
  have hfq1 : List.filter
      (fun te => te != ⟨did, dt, some ⟨dmint, td.proofs, []⟩⟩)
      (L₁ ++ ⟨did, dt, some ⟨dmint, td.proofs, []⟩⟩ :: L₂) = L₁ ++ L₂ := by
    rw [List.filter_append, List.filter_cons, bne_self_eq_false]
    simp only [Bool.false_eq_true, if_false]
    rw [List.filter_eq_self.mpr, List.filter_eq_self.mpr]
    · intro x hx
      rw [bne_iff_ne]
      intro hxx
      exact hnotL2 (hxx ▸ hx)
    · intro x hx
      rw [bne_iff_ne]
      intro hxx
      exact hnotL1 (hxx ▸ hx)
  have hfq2 : List.filter
      (fun te => te != ⟨did, dt, some ⟨dmint, td.proofs, []⟩⟩)
      (tokenEvents events ++ [⟨did, dt, some ⟨dmint, td.proofs, []⟩⟩]) =
      tokenEvents events := by
    rw [List.filter_append, List.filter_cons, bne_self_eq_false]
    simp only [Bool.false_eq_true, if_false, List.filter_nil]
    rw [List.filter_eq_self.mpr, List.append_nil]
    intro x hx
    rw [bne_iff_ne]
    intro hxx
    exact hdupT (hxx ▸ hx)
  have hLL : L₁ ++ L₂ = sortByCreatedDesc (tokenEvents events) := by
    have h1 := filter_sortByCreatedDesc
      (fun te => te != ⟨did, dt, some ⟨dmint, td.proofs, []⟩⟩)
      (tokenEvents events ++ [⟨did, dt, some ⟨dmint, td.proofs, []⟩⟩])
    rw [hsplit, hfq1, hfq2] at h1
    exact h1
  have hrun1 : reconFinal events =
      (L₁ ++ L₂).foldl processTokenEvent
        ⟨deletedIds events, [], [], []⟩ := by
    unfold reconFinal
    rw [hLL]
  have hrun2 : reconFinal
      (events ++ [.token did dt (some ⟨dmint, td.proofs, []⟩)]) =
        (L₁ ++ ⟨did, dt, some ⟨dmint, td.proofs, []⟩⟩ :: L₂).foldl
          processTokenEvent ⟨deletedIds events, [], [], []⟩ := by
    unfold reconFinal
    rw [hTE2, hDel2, hsplit]
  have hdidnot : did ∉
      (L₁.foldl processTokenEvent ⟨deletedIds events, [], [], []⟩).invalid := by
    intro h
    rcases foldl_invalid_subset L₁ _ did h with h' | h'
    · exact hfreshDeleted h'
    · rcases (mem_delsOf L₁ did).mp h' with ⟨e, heL, hede⟩
      have heS : e ∈ L₁ ++ ⟨did, dt, some ⟨dmint, td.proofs, []⟩⟩ :: L₂ :=
        List.mem_append_left _ heL
      rw [← hsplit] at heS
      have heT := ((sortByCreatedDesc_perm _).mem_iff).mp heS
      rcases List.mem_append.mp heT with h1 | h1
      · exact hfreshDels ((mem_delsOf (tokenEvents events) did).mpr
          ⟨e, h1, hede⟩)
      · rw [List.mem_singleton] at h1
        rw [h1] at hede
        simp [delsOfEvent] at hede
  have hkey :
      (processTokenEvent
        (L₁.foldl processTokenEvent ⟨deletedIds events, [], [], []⟩)
        ⟨did, dt, some ⟨dmint, td.proofs, []⟩⟩).invalid =
        (L₁.foldl processTokenEvent
          ⟨deletedIds events, [], [], []⟩).invalid ∧
      (processTokenEvent
        (L₁.foldl processTokenEvent ⟨deletedIds events, [], [], []⟩)
        ⟨did, dt, some ⟨dmint, td.proofs, []⟩⟩).seen.toFinset =
        (L₁.foldl processTokenEvent
          ⟨deletedIds events, [], [], []⟩).seen.toFinset ∪
          (td.proofs.map Proof.c).toFinset := by
    rw [processTokenEvent_eq_of _ _ ⟨dmint, td.proofs, []⟩ hdidnot rfl]
    rw [if_neg (by simpa using hdidnot)]
    constructor
    · rw [recordProofs_invalid]
      simp
    · rw [recordProofs_seenSet]
  obtain ⟨hinv2, hseen2⟩ := foldl_sim L₂ ((td.proofs.map Proof.c).toFinset)
    _ _ hkey.1 hkey.2
  have horigT : (⟨oid, ot, some td⟩ : TokenEvent) ∈ tokenEvents events :=
    mem_tokenEvents_of_mem events oid ot (some td) horig
  have horigL : (⟨oid, ot, some td⟩ : TokenEvent) ∈ L₁ ++ L₂ := by
    rw [hLL]
    exact ((sortByCreatedDesc_perm _).mem_iff).mpr horigT
  have hsurv' : oid ∉ ((L₁ ++ L₂).foldl processTokenEvent
      ⟨deletedIds events, [], [], []⟩).invalid := by
    rw [← hrun1]
    exact hsurv
  have hrec := mem_seen_of_surviving (L₁ ++ L₂)
    ⟨deletedIds events, [], [], []⟩ ⟨oid, ot, some td⟩ td horigL rfl hsurv'
  have hsub : (td.proofs.map Proof.c).toFinset ⊆
      ((L₁ ++ L₂).foldl processTokenEvent
        ⟨deletedIds events, [], [], []⟩).seen.toFinset := by
    intro x hx
    rw [List.mem_toFinset] at hx
    obtain ⟨p, hp, hpc⟩ := List.mem_map.mp hx
    rw [List.mem_toFinset]
    exact hpc ▸ hrec p hp
  have hrun2' : (L₁ ++ ⟨did, dt, some ⟨dmint, td.proofs, []⟩⟩ :: L₂).foldl
      processTokenEvent ⟨deletedIds events, [], [], []⟩ =
        L₂.foldl processTokenEvent
          (processTokenEvent
            (L₁.foldl processTokenEvent ⟨deletedIds events, [], [], []⟩)
            ⟨did, dt, some ⟨dmint, td.proofs, []⟩⟩) := by
    rw [List.foldl_append, List.foldl_cons]
  have hrun1' : (L₁ ++ L₂).foldl processTokenEvent
      ⟨deletedIds events, [], [], []⟩ =
        L₂.foldl processTokenEvent
          (L₁.foldl processTokenEvent ⟨deletedIds events, [], [], []⟩) := by
    rw [List.foldl_append]
  have hseenEq : (L₂.foldl processTokenEvent
      (processTokenEvent
        (L₁.foldl processTokenEvent ⟨deletedIds events, [], [], []⟩)
        ⟨did, dt, some ⟨dmint, td.proofs, []⟩⟩)).seen.toFinset =
      (L₂.foldl processTokenEvent
        (L₁.foldl processTokenEvent
          ⟨deletedIds events, [], [], []⟩)).seen.toFinset := by
    rw [hseen2]
    apply Finset.union_eq_left.mpr
    rw [hrun1'] at hsub
    exact hsub
  have hU : ∀ e ∈ L₁ ++ ⟨did, dt, some ⟨dmint, td.proofs, []⟩⟩ :: L₂,
      ∀ p ∈ proofsOfEvent e, p ∈ allTokenProofs events := by
    intro e he p hp
    rw [← hsplit] at he
    have heT := ((sortByCreatedDesc_perm _).mem_iff).mp he
    rcases List.mem_append.mp heT with h1 | h1
    · exact (mem_tokenProofsOf (tokenEvents events) p).mpr ⟨e, h1, hp⟩
    · rw [List.mem_singleton] at h1
      have hp' : p ∈ td.proofs := by
        rw [h1] at hp
        simpa [proofsOfEvent] using hp
      exact (mem_tokenProofsOf (tokenEvents events) p).mpr
        ⟨⟨oid, ot, some td⟩, horigT, by simpa [proofsOfEvent] using hp'⟩
  have hgood0 : GoodAcc (allTokenProofs events)
      ⟨deletedIds events, [], [], []⟩ :=
    ⟨rfl, List.nodup_nil, fun p hp => absurd hp (List.not_mem_nil p)⟩
  have hgood2 := foldl_good (allTokenProofs events)
    (L₁ ++ ⟨did, dt, some ⟨dmint, td.proofs, []⟩⟩ :: L₂)
    ⟨deletedIds events, [], [], []⟩ hU hgood0
  have hgood1 : GoodAcc (allTokenProofs events)
      ((L₁ ++ L₂).foldl processTokenEvent
        ⟨deletedIds events, [], [], []⟩) := by
    refine foldl_good _ _ _ ?_ hgood0
    intro e he p hp
    refine hU e ?_ p hp
    rcases List.mem_append.mp he with h1 | h1
    · exact List.mem_append_left _ h1
    · exact List.mem_append_right _ (List.mem_cons_of_mem _ h1)
  rw [hrun2'] at hgood2
  rw [hrun1'] at hgood1
  simp only [fetch_wallet_state]
  rw [hrun2, hrun1, hrun2', hrun1']
  exact balance_eq_of_seenSet_eq (allTokenProofs events) hwf _ _
    hgood2 hgood1 hseenEq

/-- C3 witness: one surviving token event with a proof of amount 5, and a
fresh duplicate re-announcing the same proof at a newer `created_at`. -/
theorem fetch_wallet_state_duplicate_idempotent_witness :
    NostrEvent.token 1 5 (some ⟨"m", [⟨5, "x", 7⟩], []⟩) ∈
      ([.token 1 5 (some ⟨"m", [⟨5, "x", 7⟩], []⟩)] : List NostrEvent) ∧
    (1 : Nat) ∉
      (reconFinal [.token 1 5 (some ⟨"m", [⟨5, "x", 7⟩], []⟩)]).invalid ∧
    (fetch_wallet_state
        ([.token 1 5 (some ⟨"m", [⟨5, "x", 7⟩], []⟩)] ++
          [.token 2 9 (some ⟨"m", [⟨5, "x", 7⟩], []⟩)])).balance =
      (fetch_wallet_state
        [.token 1 5 (some ⟨"m", [⟨5, "x", 7⟩], []⟩)]).balance := by
  refine ⟨by decide, by decide, ?_⟩
  exact fetch_wallet_state_duplicate_idempotent
    [.token 1 5 (some ⟨"m", [⟨5, "x", 7⟩], []⟩)]
    1 5 2 9 ⟨"m", [⟨5, "x", 7⟩], []⟩ "m"
    (by decide) (by decide) (by decide) (by decide) (by decide) (by decide)

end Ecash402
